import Mathlib

/-!
Shallow embedding of the Mandelbrot renderer (`src/main.rs`) and proofs of
the specification claims.  `f64` values are modelled as exact rationals `ℚ`:
every concrete input used below is a small dyadic rational on which the `f64`
computations of the source are exact.  Machine `u8` arithmetic is modelled on
`Nat` with explicit `% 256` where the source casts.
-/

namespace Mandelbrot

/-- The `num::Complex<f64>` type of the source, with `f64` modelled as `ℚ`. -/
structure Complex where
  re : ℚ
  im : ℚ
deriving DecidableEq, Repr

theorem Complex.ext_iff {x y : Complex} : x = y ↔ x.re = y.re ∧ x.im = y.im := by
  cases x; cases y; simp

/-- Complex addition as in the `num` crate. -/
def Complex.add (x y : Complex) : Complex := ⟨x.re + y.re, x.im + y.im⟩

/-- Complex multiplication as in the `num` crate. -/
def Complex.mul (x y : Complex) : Complex :=
  ⟨x.re * y.re - x.im * y.im, x.re * y.im + x.im * y.re⟩

instance : Add Complex := ⟨Complex.add⟩
instance : Mul Complex := ⟨Complex.mul⟩

@[simp] theorem Complex.add_re (x y : Complex) : (x + y).re = x.re + y.re := rfl
@[simp] theorem Complex.add_im (x y : Complex) : (x + y).im = x.im + y.im := rfl
@[simp] theorem Complex.mul_re (x y : Complex) : (x * y).re = x.re * y.re - x.im * y.im := rfl
@[simp] theorem Complex.mul_im (x y : Complex) : (x * y).im = x.re * y.im + x.im * y.re := rfl

/-- `Complex::norm_sqr` of the `num` crate: `re*re + im*im`. -/
def norm_sqr (z : Complex) : ℚ := z.re * z.re + z.im * z.im

/-- The loop of `escape_time` (`src/main.rs:15-24`): `fuel` is the number of
remaining iterations (`limit - i`), `i` the current loop index. -/
def escape_time.go (c z : Complex) (i fuel : Nat) : Option Nat :=
  match fuel with
  | 0 => none
  | fuel + 1 =>
    if norm_sqr z > 4 then some i
    else escape_time.go c (z * z + c) (i + 1) fuel

/-- `escape_time` (`src/main.rs:15-24`): `z` starts at `0+0i`, and for
`i in 0..limit` the norm check runs before the update `z ← z*z + c`. -/
def escape_time (c : Complex) (limit : Nat) : Option Nat :=
  escape_time.go c ⟨0, 0⟩ 0 limit

/-- The reference orbit: `z_0 = 0`, `z_{k+1} = z_k² + c`. -/
def zIter (c : Complex) : Nat → Complex
  | 0 => ⟨0, 0⟩
  | n + 1 => zIter c n * zIter c n + c

/-- `pixed_to_point` (`src/main.rs:79-103`).  `bounds = (width, height)` in
pixels, `pixed = (column, row)`. -/
def pixed_to_point (bounds : Nat × Nat) (pixed : Nat × Nat)
    (upper_left lower_right : Complex) : Complex :=
  let width := lower_right.re - upper_left.re
  let height := upper_left.im - lower_right.im
  ⟨upper_left.re + (pixed.1 : ℚ) * width / (bounds.1 : ℚ),
   upper_left.im - (pixed.2 : ℚ) * height / (bounds.2 : ℚ)⟩

/-- The byte `render` (`src/main.rs:134-142`) stores for one pixel:
`escape_time` at the pixel's point with limit 255, `None ↦ 0`,
`Some count ↦ 255 - count as u8` (the `u8` cast is `% 256`; the subtraction
cannot underflow since `count % 256 ≤ 255`). -/
def renderByte (bounds : Nat × Nat) (pixed : Nat × Nat)
    (upper_left lower_right : Complex) : Nat :=
  match escape_time (pixed_to_point bounds pixed upper_left lower_right) 255 with
  | none => 0
  | some count => 255 - count % 256

/-- A bounds-checked store into the pixel buffer: Rust's `pixels[idx] = v`
panics when `idx` is out of bounds, modelled as `none`. -/
def setChecked (l : List Nat) (i : Nat) (v : Nat) : Option (List Nat) :=
  if i < l.length then some (l.set i v) else none

/-- The inner loop of `render` (`src/main.rs:135-141`): for
`column in 0..bounds.0`, write the pixel byte at `raw * bounds.0 + column`. -/
def renderInner (bounds : Nat × Nat) (upper_left lower_right : Complex)
    (raw : Nat) (px : List Nat) : Option (List Nat) :=
  (List.range bounds.1).foldlM
    (fun px column =>
      setChecked px (raw * bounds.1 + column)
        (renderByte bounds (column, raw) upper_left lower_right))
    px

/-- `render` (`src/main.rs:126-143`).  The `assert_eq!` on the buffer length
and any out-of-bounds write are panics, modelled as `none`; otherwise the
result is the updated buffer. -/
def render (pixels : List Nat) (bounds : Nat × Nat)
    (upper_left lower_right : Complex) : Option (List Nat) :=
  if pixels.length = bounds.1 * bounds.2 then
    (List.range bounds.2).foldlM
      (fun px raw => renderInner bounds upper_left lower_right raw px) pixels
  else none

/-- One row of output pixels, as a list. -/
def renderRow (bounds : Nat × Nat) (raw : Nat)
    (upper_left lower_right : Complex) : List Nat :=
  (List.range bounds.1).map
    (fun column => renderByte bounds (column, raw) upper_left lower_right)

/-- The buffer `render` produces on a length-matching input, described
directly: the rows `0, …, bounds.1 - 1` concatenated. -/
def renderPure (bounds : Nat × Nat) (upper_left lower_right : Complex) : List Nat :=
  ((List.range bounds.2).map
    (fun raw => renderRow bounds raw upper_left lower_right)).flatten

/-- Fuelled worker for `chunks`; with `fuel ≥ l.length` and `w ≥ 1` it
computes slice `chunks(w)`. -/
def chunksGo (fuel : Nat) (l : List Nat) (w : Nat) : List (List Nat) :=
  match fuel, l with
  | 0, _ => []
  | _, [] => []
  | fuel + 1, a :: l => ((a :: l).take w) :: chunksGo fuel ((a :: l).drop w) w

/-- Rust's `slice::chunks_mut(w)` (`src/main.rs:181`): consecutive chunks of
`w` elements. -/
def chunks (l : List Nat) (w : Nat) : List (List Nat) :=
  chunksGo l.length l w

/-- The per-band work of `main` (`src/main.rs:183-189`): band `i` is rendered
with bounds `(bounds.0, 1)` and the rectangle obtained by mapping pixels
`(0, i)` and `(bounds.0, i+1)` through `pixed_to_point` at the full bounds
and full rectangle. -/
def renderBands (bounds : Nat × Nat) (upper_left lower_right : Complex) :
    List (Nat × List Nat) → Option (List (List Nat))
  | [] => some []
  | (i, band) :: rest =>
    match render band (bounds.1, 1)
            (pixed_to_point bounds (0, i) upper_left lower_right)
            (pixed_to_point bounds (bounds.1, i + 1) upper_left lower_right),
          renderBands bounds upper_left lower_right rest with
    | some b, some bs => some (b :: bs)
    | _, _ => none

/-- The banded rendering of `main` (`src/main.rs:181-189`): split the buffer
into one-row chunks, render each band with its own sub-rectangle, and
reassemble.  Since the bands partition the buffer, the in-place writes of the
source amount to concatenating the rendered bands. -/
def renderBanded (pixels : List Nat) (bounds : Nat × Nat)
    (upper_left lower_right : Complex) : Option (List Nat) :=
  (renderBands bounds upper_left lower_right
      ((chunks pixels bounds.1).enum)).map List.flatten

theorem go_zero (c z : Complex) (i : Nat) : escape_time.go c z i 0 = none := rfl

theorem go_succ (c z : Complex) (i fuel : Nat) :
    escape_time.go c z i (fuel + 1) =
      if norm_sqr z > 4 then some i
      else escape_time.go c (z * z + c) (i + 1) fuel := rfl

theorem zIter_zero (c : Complex) : zIter c 0 = ⟨0, 0⟩ := rfl

theorem zIter_succ (c : Complex) (n : Nat) :
    zIter c (n + 1) = zIter c n * zIter c n + c := rfl

/-- Loop invariant for `escape_time.go`: starting at index `i` with the
`i`-th orbit point and `fuel` remaining iterations, the loop returns the
least escaping index in `[i, i + fuel)`, or `none` if there is none. -/
theorem go_spec (c : Complex) :
    ∀ (fuel i : Nat),
      (∀ k, escape_time.go c (zIter c i) i fuel = some k ↔
        (i ≤ k ∧ k < i + fuel ∧ 4 < norm_sqr (zIter c k) ∧
          ∀ j, i ≤ j → j < k → norm_sqr (zIter c j) ≤ 4)) ∧
      (escape_time.go c (zIter c i) i fuel = none ↔
        ∀ j, i ≤ j → j < i + fuel → norm_sqr (zIter c j) ≤ 4) := by
  intro fuel
  induction fuel with
  | zero =>
    intro i
    refine ⟨fun k => ?_, ?_⟩
    · simp only [go_zero]
      constructor
      · intro h; exact absurd h (by simp)
      · rintro ⟨h1, h2, -⟩; omega
    · simp only [go_zero]
      constructor
      · intro _ j hj hj'; omega
      · intro _; trivial
  | succ fuel ih =>
    intro i
    rw [show escape_time.go c (zIter c i) i (fuel + 1) =
        if norm_sqr (zIter c i) > 4 then some i
        else escape_time.go c (zIter c (i + 1)) (i + 1) fuel from go_succ ..]
    by_cases h : 4 < norm_sqr (zIter c i)
    · rw [if_pos h]
      refine ⟨fun k => ?_, ?_⟩
      · constructor
        · intro hk
          have hk' : i = k := by injection hk
          subst hk'
          exact ⟨le_refl i, by omega, h, fun j hj hj' => by omega⟩
        · rintro ⟨h1, _, _, h4⟩
          rcases Nat.eq_or_lt_of_le h1 with h1' | h1'
          · rw [h1']
          · exact absurd h (not_lt.mpr (h4 i (le_refl i) h1'))
      · constructor
        · intro hk; exact absurd hk (by simp)
        · intro hall
          exact absurd h (not_lt.mpr (hall i (le_refl i) (by omega)))
    · rw [if_neg h]
      have h' : norm_sqr (zIter c i) ≤ 4 := not_lt.mp h
      obtain ⟨ihs, ihn⟩ := ih (i + 1)
      refine ⟨fun k => ?_, ?_⟩
      · rw [ihs k]
        constructor
        · rintro ⟨h1, h2, h3, h4⟩
          refine ⟨by omega, by omega, h3, fun j hj hj' => ?_⟩
          rcases Nat.eq_or_lt_of_le hj with hj'' | hj''
          · rw [← hj'']; exact h'
          · exact h4 j hj'' hj'
        · rintro ⟨h1, h2, h3, h4⟩
          have hik : i + 1 ≤ k := by
            rcases Nat.eq_or_lt_of_le h1 with h1' | h1'
            · exact absurd h3 (by rw [← h1']; exact not_lt.mpr h')
            · exact h1'
          exact ⟨hik, by omega, h3, fun j hj hj' => h4 j (by omega) hj'⟩
      · rw [ihn]
        constructor
        · intro hall j hj hj'
          rcases Nat.eq_or_lt_of_le hj with hj'' | hj''
          · rw [← hj'']; exact h'
          · exact hall j hj'' (by omega)
        · intro hall j hj hj'
          exact hall j (by omega) (by omega)

/-- The full specification of `escape_time`, as a helper. -/
theorem escape_time_iff (c : Complex) (L : Nat) :
    (∀ i, escape_time c L = some i ↔
      (i < L ∧ 4 < norm_sqr (zIter c i) ∧ ∀ j, j < i → norm_sqr (zIter c j) ≤ 4)) ∧
    (escape_time c L = none ↔ ∀ j, j < L → norm_sqr (zIter c j) ≤ 4) := by
  have h0 : escape_time c L = escape_time.go c (zIter c 0) 0 L := rfl
  obtain ⟨hs, hn⟩ := go_spec c L 0
  constructor
  · intro i
    rw [h0, hs i]
    constructor
    · rintro ⟨-, h2, h3, h4⟩
      exact ⟨by omega, h3, fun j hj => h4 j (Nat.zero_le j) hj⟩
    · rintro ⟨h2, h3, h4⟩
      exact ⟨Nat.zero_le i, by omega, h3, fun j _ hj => h4 j hj⟩
  · rw [h0, hn]
    constructor
    · intro hall j hj; exact hall j (Nat.zero_le j) (by omega)
    · intro hall j _ hj; exact hall j (by omega)

theorem zIter_one (c : Complex) : zIter c 1 = c := by
  rw [zIter_succ, zIter_zero]
  simp [Complex.ext_iff]

theorem norm_sqr_origin : norm_sqr ⟨0, 0⟩ = 0 := by simp [norm_sqr]

/-- Helper: a point with `|c|² > 4` escapes at index 1 whenever the limit
allows at least two loop iterations. -/
theorem escape_time_far_aux (c : Complex) (L : Nat) (h4 : 4 < norm_sqr c)
    (hL : 2 ≤ L) : escape_time c L = some 1 := by
  rw [(escape_time_iff c L).1 1]
  refine ⟨by omega, by rw [zIter_one]; exact h4, ?_⟩
  intro j hj
  interval_cases j
  rw [zIter_zero, norm_sqr_origin]
  norm_num

/-- Helper: any escape index is at least 1 (the first check sees `z = 0`)
and below the limit. -/
theorem escape_time_some_bounds (c : Complex) (L i : Nat)
    (h : escape_time c L = some i) : 1 ≤ i ∧ i < L := by
  rw [(escape_time_iff c L).1 i] at h
  obtain ⟨h1, h2, -⟩ := h
  refine ⟨?_, h1⟩
  by_contra h'
  have hi : i = 0 := by omega
  rw [hi, zIter_zero, norm_sqr_origin] at h2
  norm_num at h2

/-- Helper: the two corners of the plane rectangle are hit exactly. -/
theorem pixed_to_point_corners_aux (W H : Nat) (ul lr : Complex)
    (hW : 1 ≤ W) (hH : 1 ≤ H) :
    pixed_to_point (W, H) (0, 0) ul lr = ul ∧
    pixed_to_point (W, H) (W, H) ul lr = lr := by
  have hW' : (W : ℚ) ≠ 0 := Nat.cast_ne_zero.mpr (by omega)
  have hH' : (H : ℚ) ≠ 0 := Nat.cast_ne_zero.mpr (by omega)
  constructor
  · simp [pixed_to_point, Complex.ext_iff]
  · simp only [pixed_to_point, Complex.ext_iff]
    constructor
    · field_simp
    · field_simp

/-- Helper: a band's own coordinate mapping agrees with the full one.
Band `i` has bounds `(W, 1)` and corners obtained by mapping `(0, i)` and
`(W, i + 1)` at the full bounds; within it, pixel `(col, 0)` lands exactly
where pixel `(col, i)` lands at the full bounds. -/
theorem band_point (bounds : Nat × Nat) (ul lr : Complex) (i col : Nat)
    (hW : bounds.1 ≠ 0) :
    pixed_to_point (bounds.1, 1) (col, 0)
      (pixed_to_point bounds (0, i) ul lr)
      (pixed_to_point bounds (bounds.1, i + 1) ul lr) =
    pixed_to_point bounds (col, i) ul lr := by
  have hW' : ((bounds.1 : Nat) : ℚ) ≠ 0 := Nat.cast_ne_zero.mpr hW
  simp only [pixed_to_point, Complex.ext_iff]
  constructor
  · field_simp
  · simp

/-- Helper: the band's byte at column `col` of its single row equals the full
image's byte at `(col, i)`. -/
theorem band_byte (bounds : Nat × Nat) (ul lr : Complex) (i col : Nat)
    (hW : bounds.1 ≠ 0) :
    renderByte (bounds.1, 1) (col, 0)
      (pixed_to_point bounds (0, i) ul lr)
      (pixed_to_point bounds (bounds.1, i + 1) ul lr) =
    renderByte bounds (col, i) ul lr := by
  rw [renderByte, renderByte, band_point bounds ul lr i col hW]

/-- Invariant of the inner (column) loop of `render`: it writes the bytes of
row `raw` into positions `raw * bounds.0 + column` and touches nothing else. -/
theorem inner_fold_spec (bounds : Nat × Nat) (ul lr : Complex) (raw : Nat) :
    ∀ (n : Nat) (px : List Nat), raw * bounds.1 + n ≤ px.length →
    ∃ px', (List.range n).foldlM
        (fun px column =>
          setChecked px (raw * bounds.1 + column)
            (renderByte bounds (column, raw) ul lr)) px = some px' ∧
      px'.length = px.length ∧
      ∀ j, px'[j]? =
        if raw * bounds.1 ≤ j ∧ j < raw * bounds.1 + n
        then some (renderByte bounds (j - raw * bounds.1, raw) ul lr)
        else px[j]? := by
  intro n
  induction n with
  | zero =>
    intro px _
    refine ⟨px, by simp, rfl, fun j => ?_⟩
    rw [if_neg (by omega)]
  | succ n ih =>
    intro px hlen
    obtain ⟨px', h1, h2, h3⟩ := ih px (by omega)
    have hidx : raw * bounds.1 + n < px'.length := by omega
    refine ⟨px'.set (raw * bounds.1 + n) (renderByte bounds (n, raw) ul lr), ?_, ?_, ?_⟩
    · rw [List.range_succ, List.foldlM_append, h1]
      simp [List.foldlM_cons, List.foldlM_nil, setChecked, hidx]
    · rw [List.length_set]; exact h2
    · intro j
      rw [List.getElem?_set]
      by_cases hj : raw * bounds.1 + n = j
      · rw [if_pos hj, if_pos hidx, ← hj]
        rw [if_pos (by omega)]
        simp
      · rw [if_neg hj, h3 j]
        by_cases hj' : raw * bounds.1 ≤ j ∧ j < raw * bounds.1 + n
        · rw [if_pos hj', if_pos (by omega)]
        · rw [if_neg hj', if_neg (by omega)]

/-- Division and remainder of an index lying inside row `m`. -/
theorem div_mod_of_band (W m j : Nat) (h1 : m * W ≤ j) (h2 : j < m * W + W) :
    j / W = m ∧ j % W = j - m * W := by
  have hW : 0 < W := by omega
  have hj : j = (j - m * W) + m * W := by omega
  have hc : j - m * W < W := by omega
  constructor
  · rw [hj, Nat.add_mul_div_right _ _ hW, Nat.div_eq_of_lt hc, Nat.zero_add]
  · rw [hj, Nat.add_mul_mod_self_right, Nat.mod_eq_of_lt hc]
    omega

/-- Invariant of the outer (row) loop of `render`: after `m` rows the first
`m * bounds.0` bytes hold the image and the rest of the buffer is unchanged. -/
theorem outer_fold_spec (bounds : Nat × Nat) (ul lr : Complex) :
    ∀ (m : Nat) (px : List Nat), m * bounds.1 ≤ px.length →
    ∃ px', (List.range m).foldlM
        (fun px raw => renderInner bounds ul lr raw px) px = some px' ∧
      px'.length = px.length ∧
      ∀ j, px'[j]? =
        if j < m * bounds.1
        then some (renderByte bounds (j % bounds.1, j / bounds.1) ul lr)
        else px[j]? := by
  intro m
  induction m with
  | zero =>
    intro px _
    refine ⟨px, by simp, rfl, fun j => ?_⟩
    rw [if_neg (by omega)]
  | succ m ih =>
    intro px hlen
    rw [Nat.succ_mul] at hlen
    obtain ⟨px', h1, h2, h3⟩ := ih px (by omega)
    obtain ⟨px'', g1, g2, g3⟩ :=
      inner_fold_spec bounds ul lr m bounds.1 px' (by omega)
    refine ⟨px'', ?_, by omega, ?_⟩
    · rw [List.range_succ, List.foldlM_append, h1]
      have g1' : renderInner bounds ul lr m px' = some px'' := g1
      simp [List.foldlM_cons, List.foldlM_nil, g1']
    · intro j
      rw [g3 j]
      by_cases hj : m * bounds.1 ≤ j ∧ j < m * bounds.1 + bounds.1
      · obtain ⟨hd, hm⟩ := div_mod_of_band bounds.1 m j hj.1 hj.2
        rw [if_pos hj, if_pos (by rw [Nat.succ_mul]; omega), hd, hm]
      · rw [if_neg hj, h3 j]
        by_cases hj' : j < m * bounds.1
        · rw [if_pos hj', if_pos (by rw [Nat.succ_mul]; omega)]
        · rw [if_neg hj', if_neg (by rw [Nat.succ_mul]; omega)]

/-- Length and contents of the direct row-by-row buffer description. -/
theorem renderPure_getElem? (bounds : Nat × Nat) (ul lr : Complex) :
    ∀ (m : Nat),
      (((List.range m).map (fun raw => renderRow bounds raw ul lr)).flatten).length =
        m * bounds.1 ∧
      ∀ j, (((List.range m).map (fun raw => renderRow bounds raw ul lr)).flatten)[j]? =
        if j < m * bounds.1
        then some (renderByte bounds (j % bounds.1, j / bounds.1) ul lr)
        else none := by
  intro m
  induction m with
  | zero =>
    refine ⟨by simp, fun j => ?_⟩
    rw [if_neg (by omega)]
    simp
  | succ m ih =>
    obtain ⟨ihl, ihp⟩ := ih
    have hrow : (renderRow bounds m ul lr).length = bounds.1 := by
      rw [renderRow, List.length_map, List.length_range]
    constructor
    · rw [List.range_succ, List.map_append, List.flatten_append]
      rw [List.length_append, ihl]
      simp [hrow, Nat.succ_mul]
    · intro j
      rw [List.range_succ, List.map_append, List.flatten_append]
      by_cases hj : j < m * bounds.1
      · rw [List.getElem?_append_left (by omega), ihp j, if_pos hj,
          if_pos (by rw [Nat.succ_mul]; omega)]
      · rw [List.getElem?_append_right (by omega), ihl]
        by_cases hj' : j < m * bounds.1 + bounds.1
        · obtain ⟨hd, hm⟩ := div_mod_of_band bounds.1 m j (by omega) hj'
          rw [if_pos (by rw [Nat.succ_mul]; omega), hd, hm]
          have hc : j - m * bounds.1 < bounds.1 := by omega
          simp only [List.map_cons, List.map_nil, List.flatten_cons, List.flatten_nil,
            List.append_nil, renderRow]
          rw [List.getElem?_map, List.getElem?_range hc]
          rfl
        · rw [if_neg (by rw [Nat.succ_mul]; omega)]
          simp only [List.map_cons, List.map_nil, List.flatten_cons, List.flatten_nil,
            List.append_nil]
          exact List.getElem?_eq_none (by rw [hrow]; omega)

/-- On a length-matching buffer, `render` succeeds and its output is exactly
the row-by-row buffer `renderPure`, independent of the input contents. -/
theorem render_eq_pure (pixels : List Nat) (bounds : Nat × Nat)
    (ul lr : Complex) (h : pixels.length = bounds.1 * bounds.2) :
    render pixels bounds ul lr = some (renderPure bounds ul lr) := by
  obtain ⟨px', h1, h2, h3⟩ := outer_fold_spec bounds ul lr bounds.2 pixels
    (by rw [h, Nat.mul_comm])
  rw [render, if_pos h, h1]
  congr 1
  obtain ⟨pl, pp⟩ := renderPure_getElem? bounds ul lr bounds.2
  apply List.ext_getElem?
  intro j
  rw [h3 j, renderPure, pp j]
  by_cases hj : j < bounds.2 * bounds.1
  · rw [if_pos hj, if_pos hj]
  · rw [if_neg hj, if_neg hj]
    exact List.getElem?_eq_none (by rw [h, Nat.mul_comm]; omega)

/-- Invariant of the fuelled chunker: on a buffer of length `W * H` with
`W ≥ 1` and enough fuel it yields `H` chunks of `W` bytes whose
concatenation is the buffer. -/
theorem chunksGo_spec (W : Nat) (hW : 1 ≤ W) :
    ∀ (H : Nat) (fuel : Nat) (l : List Nat), l.length = W * H → l.length ≤ fuel →
    (chunksGo fuel l W).length = H ∧
    (∀ b ∈ chunksGo fuel l W, b.length = W) ∧
    (chunksGo fuel l W).flatten = l := by
  intro H
  induction H with
  | zero =>
    intro fuel l hl _
    have : l = [] := List.eq_nil_of_length_eq_zero (by omega)
    subst this
    cases fuel <;> simp [chunksGo]
  | succ H ih =>
    intro fuel l hl hfuel
    rw [Nat.mul_succ] at hl
    have hl1 : 1 ≤ l.length := by omega
    obtain ⟨a, l', rfl⟩ : ∃ a l', l = a :: l' := by
      cases l with
      | nil => simp at hl1
      | cons a l' => exact ⟨a, l', rfl⟩
    obtain ⟨f, rfl⟩ : ∃ f, fuel = f + 1 := by
      cases fuel with
      | zero => omega
      | succ f => exact ⟨f, rfl⟩
    have hdrop : ((a :: l').drop W).length = W * H := by
      rw [List.length_drop]; omega
    obtain ⟨ihl, ihb, ihf⟩ := ih f ((a :: l').drop W) hdrop
      (by rw [List.length_drop]; omega)
    have hgo : chunksGo (f + 1) (a :: l') W =
        ((a :: l').take W) :: chunksGo f ((a :: l').drop W) W := rfl
    refine ⟨?_, ?_, ?_⟩
    · rw [hgo, List.length_cons, ihl]
    · intro b hb
      rw [hgo, List.mem_cons] at hb
      rcases hb with hb | hb
      · rw [hb, List.length_take]; omega
      · exact ihb b hb
    · rw [hgo, List.flatten_cons, ihf, List.take_append_drop]

/-- `chunks` on a buffer of length `W * H` (with `W ≥ 1`): `H` bands of `W`
bytes each, concatenating back to the buffer. -/
theorem chunks_spec (W H : Nat) (l : List Nat) (hW : 1 ≤ W)
    (hl : l.length = W * H) :
    (chunks l W).length = H ∧
    (∀ b ∈ chunks l W, b.length = W) ∧
    (chunks l W).flatten = l :=
  chunksGo_spec W hW H l.length l hl (le_refl _)

/-- The per-band loop renders every band (of correct width) to the pure
one-row image of its own rectangle, whatever its contents. -/
theorem renderBands_spec (bounds : Nat × Nat) (ul lr : Complex) :
    ∀ (l : List (List Nat)) (s : Nat), (∀ b ∈ l, b.length = bounds.1) →
    renderBands bounds ul lr (l.enumFrom s) =
      some ((l.enumFrom s).map (fun p =>
        renderPure (bounds.1, 1)
          (pixed_to_point bounds (0, p.1) ul lr)
          (pixed_to_point bounds (bounds.1, p.1 + 1) ul lr))) := by
  intro l
  induction l with
  | nil => intro s _; rfl
  | cons a l ihl =>
    intro s h
    have ha : a.length = (bounds.1, 1).1 * (bounds.1, 1).2 := by
      have := h a (List.mem_cons_self a l)
      simpa using this
    have hrender := render_eq_pure a (bounds.1, 1)
      (pixed_to_point bounds (0, s) ul lr)
      (pixed_to_point bounds (bounds.1, s + 1) ul lr) ha
    have hrest := ihl (s + 1) (fun b hb => h b (List.mem_cons_of_mem a hb))
    rw [List.enumFrom_cons]
    simp only [renderBands, hrender, hrest, List.map_cons]

/-- Helper: a band's one-row pure image is exactly row `i` of the full
image. -/
theorem band_row (bounds : Nat × Nat) (ul lr : Complex) (i : Nat)
    (hW : bounds.1 ≠ 0) :
    renderPure (bounds.1, 1)
      (pixed_to_point bounds (0, i) ul lr)
      (pixed_to_point bounds (bounds.1, i + 1) ul lr) =
    renderRow bounds i ul lr := by
  have h1 : List.range 1 = [0] := by rw [List.range_succ]; rfl
  rw [renderPure]
  simp only [h1, List.map_cons, List.map_nil, List.flatten_cons, List.flatten_nil,
    List.append_nil]
  rw [renderRow, renderRow]
  exact List.map_congr_left (fun col _ => band_byte bounds ul lr i col hW)

/-- Helper: the banded rendering of `main` also produces exactly the pure
full image. -/
theorem renderBanded_eq_aux (pixels : List Nat) (W H : Nat) (ul lr : Complex)
    (hW : 1 ≤ W) (hlen : pixels.length = W * H) :
    renderBanded pixels (W, H) ul lr = some (renderPure (W, H) ul lr) := by
  obtain ⟨hcl, hcb, -⟩ := chunks_spec W H pixels hW hlen
  have hb := renderBands_spec (W, H) ul lr (chunks pixels W) 0 (by simpa using hcb)
  show (renderBands (W, H) ul lr ((chunks pixels W).enumFrom 0)).map List.flatten =
    some (renderPure (W, H) ul lr)
  rw [hb, Option.map_some']
  congr 1
  have hmap : ((chunks pixels W).enumFrom 0).map (fun p =>
      renderPure ((W, H).1, 1)
        (pixed_to_point (W, H) (0, p.1) ul lr)
        (pixed_to_point (W, H) ((W, H).1, p.1 + 1) ul lr)) =
      (((chunks pixels W).enumFrom 0).map Prod.fst).map (fun i =>
        renderPure ((W, H).1, 1)
          (pixed_to_point (W, H) (0, i) ul lr)
          (pixed_to_point (W, H) ((W, H).1, i + 1) ul lr)) := by
    rw [List.map_map]
    rfl
  rw [hmap, List.enumFrom_map_fst, hcl, ← List.range_eq_range']
  rw [show renderPure (W, H) ul lr =
    ((List.range H).map (fun raw => renderRow (W, H) raw ul lr)).flatten from rfl]
  congr 1
  exact List.map_congr_left (fun i _ => band_row (W, H) ul lr i (by omega))

theorem zIter_origin : ∀ n, zIter ⟨0, 0⟩ n = ⟨0, 0⟩ := by
  intro n
  induction n with
  | zero => rfl
  | succ n ih => rw [zIter_succ, ih]; simp [Complex.ext_iff]

/-- C1: for every pixel buffer of length `W * H` (`W ≥ 1`, `H ≥ 1`) and every
plane rectangle, rendering the buffer as `H` one-row bands — band `i` with
bounds `(W, 1)` and the rectangle obtained by mapping pixels `(0, i)` and
`(W, i + 1)` through `pixed_to_point` at the full bounds and rectangle —
produces a buffer byte-identical to a single `render` call over the full
buffer. -/
theorem claim1_banded_render_eq_full (pixels : List Nat) (W H : Nat)
    (ul lr : Complex) (hW : 1 ≤ W) (hH : 1 ≤ H)
    (hlen : pixels.length = W * H) :
    renderBanded pixels (W, H) ul lr = render pixels (W, H) ul lr := by
  rw [renderBanded_eq_aux pixels W H ul lr hW hlen,
    render_eq_pure pixels (W, H) ul lr hlen]

theorem claim1_witness :
    1 ≤ 1 ∧ 1 ≤ 2 ∧ ([0, 0] : List Nat).length = 1 * 2 ∧
    renderBanded [0, 0] (1, 2) ⟨3, 0⟩ ⟨5, -1⟩ =
      render [0, 0] (1, 2) ⟨3, 0⟩ ⟨5, -1⟩ :=
  ⟨Nat.le_refl 1, by omega, rfl,
    claim1_banded_render_eq_full [0, 0] 1 2 ⟨3, 0⟩ ⟨5, -1⟩
      (Nat.le_refl 1) (by omega) rfl⟩

/-- C2: `escape_time c L` follows the reference escape-time definition over
the orbit `z_0 = 0`, `z_{k+1} = z_k² + c`: it returns `some i` exactly for
the least `i < L` with `|z_i|² > 4` (the norm check running before each
update), and `none` exactly when no index below `L` escapes. -/
theorem claim2_escape_time_reference (c : Complex) (L : Nat) :
    (∀ i, escape_time c L = some i ↔
      (i < L ∧ 4 < norm_sqr (zIter c i) ∧ ∀ j, j < i → norm_sqr (zIter c j) ≤ 4)) ∧
    (escape_time c L = none ↔ ∀ j, j < L → norm_sqr (zIter c j) ≤ 4) :=
  escape_time_iff c L

/-- C3 (counterexample): `c = 3 + 0i` has `|c|² > 4` and limit `1 ≥ 1`, yet
`escape_time` does not return `some 0` — the first norm check sees `z = 0`. -/
theorem claim3_counterexample :
    norm_sqr ⟨3, 0⟩ > 4 ∧ 1 ≤ (1 : Nat) ∧ escape_time ⟨3, 0⟩ 1 ≠ some 0 := by
  refine ⟨by norm_num [norm_sqr], le_refl 1, fun h => ?_⟩
  obtain ⟨-, h2, -⟩ := ((escape_time_iff ⟨3, 0⟩ 1).1 0).mp h
  rw [zIter_zero, norm_sqr_origin] at h2
  norm_num at h2

/-- C3 (amended): for every `c` with `|c|² > 4` and every limit `L ≥ 2`,
`escape_time c L` returns `some 1` — the escape is detected on the second
check, after one update. -/
theorem claim3_escape_iteration_one (c : Complex) (L : Nat)
    (h4 : 4 < norm_sqr c) (hL : 2 ≤ L) : escape_time c L = some 1 :=
  escape_time_far_aux c L h4 hL

theorem claim3_witness :
    4 < norm_sqr ⟨3, 0⟩ ∧ 2 ≤ 2 ∧ escape_time ⟨3, 0⟩ 2 = some 1 :=
  ⟨by norm_num [norm_sqr], le_refl 2,
    claim3_escape_iteration_one ⟨3, 0⟩ 2 (by norm_num [norm_sqr]) (le_refl 2)⟩

/-- C4: `pixed_to_point` computes exactly
`re = ul.re + col * (lr.re - ul.re) / W` and
`im = ul.im - row * (ul.im - lr.im) / H`; in particular bounds `(100, 200)`,
pixel `(25, 175)`, `ul = (-1, 1)`, `lr = (1, -1)` map to `(-0.5, -0.75)`. -/
theorem claim4_pixed_to_point_formula :
    (∀ (bounds pixed : Nat × Nat) (ul lr : Complex),
      pixed_to_point bounds pixed ul lr =
        ⟨ul.re + (pixed.1 : ℚ) * (lr.re - ul.re) / (bounds.1 : ℚ),
         ul.im - (pixed.2 : ℚ) * (ul.im - lr.im) / (bounds.2 : ℚ)⟩) ∧
    pixed_to_point (100, 200) (25, 175) ⟨-1, 1⟩ ⟨1, -1⟩ = ⟨-1/2, -3/4⟩ :=
  ⟨fun _ _ _ _ => rfl, by norm_num [pixed_to_point, Complex.ext_iff]⟩

/-- C5: for `W ≥ 1`, `H ≥ 1`, the coordinate mapper sends pixel `(0, 0)`
exactly to `upper_left` and pixel `(W, H)` exactly to `lower_right`. -/
theorem claim5_corner_mapping (W H : Nat) (ul lr : Complex)
    (hW : 1 ≤ W) (hH : 1 ≤ H) :
    pixed_to_point (W, H) (0, 0) ul lr = ul ∧
    pixed_to_point (W, H) (W, H) ul lr = lr :=
  pixed_to_point_corners_aux W H ul lr hW hH

theorem claim5_witness :
    1 ≤ 2 ∧ 1 ≤ 3 ∧
    (pixed_to_point (2, 3) (0, 0) ⟨-1, 1⟩ ⟨1, -1⟩ = ⟨-1, 1⟩ ∧
     pixed_to_point (2, 3) (2, 3) ⟨-1, 1⟩ ⟨1, -1⟩ = ⟨1, -1⟩) :=
  ⟨by omega, by omega,
    claim5_corner_mapping 2 3 ⟨-1, 1⟩ ⟨1, -1⟩ (by omega) (by omega)⟩

/-- C6: `render` writes into the byte at index `row * W + col` the value `0`
when `escape_time` of the pixel's point with limit 255 is `none`, and
`255 - (count % 256)` when it is `some count`; nothing else is applied. -/
theorem claim6_pixel_byte (pixels : List Nat) (W H row col : Nat)
    (ul lr : Complex) (hlen : pixels.length = W * H)
    (hr : row < H) (hc : col < W) :
    ∃ out, render pixels (W, H) ul lr = some out ∧
      out[row * W + col]? = some
        (match escape_time (pixed_to_point (W, H) (col, row) ul lr) 255 with
          | none => 0
          | some count => 255 - count % 256) := by
  refine ⟨renderPure (W, H) ul lr, render_eq_pure pixels (W, H) ul lr hlen, ?_⟩
  obtain ⟨-, pp⟩ := renderPure_getElem? (W, H) ul lr H
  dsimp only at pp
  have hjlt : row * W + col < row * W + W := by omega
  have hjge : row * W ≤ row * W + col := by omega
  have hHW : (row + 1) * W ≤ H * W := Nat.mul_le_mul_right W hr
  obtain ⟨hd, hm⟩ := div_mod_of_band W row (row * W + col) hjge hjlt
  rw [renderPure, pp (row * W + col),
    if_pos (by rw [Nat.succ_mul] at hHW; omega), hd, hm]
  have : row * W + col - row * W = col := by omega
  rw [this]
  rfl

theorem claim6_witness :
    ∃ out, render [7] (1, 1) ⟨3, 0⟩ ⟨4, -1⟩ = some out ∧
      out[0 * 1 + 0]? = some
        (match escape_time (pixed_to_point (1, 1) (0, 0) ⟨3, 0⟩ ⟨4, -1⟩) 255 with
          | none => 0
          | some count => 255 - count % 256) :=
  claim6_pixel_byte [7] 1 1 0 0 ⟨3, 0⟩ ⟨4, -1⟩ rfl (by omega) (by omega)

/-- C7: `render` fails loudly exactly when the buffer length differs from
`bounds.0 * bounds.1`; on a matching buffer it succeeds with no silent
truncation (the output keeps the length), and every index it writes,
`row * bounds.0 + col`, is in bounds. -/
theorem claim7_render_length_contract (pixels : List Nat)
    (bounds : Nat × Nat) (ul lr : Complex) :
    (render pixels bounds ul lr = none ↔
      pixels.length ≠ bounds.1 * bounds.2) ∧
    (∀ out, render pixels bounds ul lr = some out →
      out.length = pixels.length) ∧
    (∀ row col, row < bounds.2 → col < bounds.1 →
      row * bounds.1 + col < bounds.1 * bounds.2) := by
  refine ⟨⟨fun hn hlen => ?_, fun hne => ?_⟩, fun out hout => ?_, fun row col hr hc => ?_⟩
  · rw [render_eq_pure pixels bounds ul lr hlen] at hn
    exact Option.noConfusion hn
  · rw [render, if_neg hne]
  · by_cases hlen : pixels.length = bounds.1 * bounds.2
    · rw [render_eq_pure pixels bounds ul lr hlen] at hout
      have hout' : renderPure bounds ul lr = out := by injection hout
      obtain ⟨pl, -⟩ := renderPure_getElem? bounds ul lr bounds.2
      rw [← hout', renderPure, pl, hlen, Nat.mul_comm]
    · rw [render, if_neg hlen] at hout
      exact Option.noConfusion hout
  · have h1 : (row + 1) * bounds.1 ≤ bounds.2 * bounds.1 :=
      Nat.mul_le_mul_right bounds.1 hr
    rw [Nat.succ_mul] at h1
    rw [Nat.mul_comm bounds.1 bounds.2]
    omega

/-- C8: the origin never escapes: for every limit `L`,
`escape_time ⟨0, 0⟩ L = none` — the orbit stays at the fixed point `0`. -/
theorem claim8_origin_indeterminate (L : Nat) : escape_time ⟨0, 0⟩ L = none := by
  refine (escape_time_iff ⟨0, 0⟩ L).2.mpr (fun j _ => ?_)
  rw [zIter_origin, norm_sqr_origin]
  norm_num

/-- C9: splitting a buffer of length `W * H` (`W ≥ 1`) into consecutive
chunks of `W` bytes yields exactly `H` bands of `W` bytes each whose
concatenation is the buffer: every byte is in exactly one band, with no
gaps and no overlaps. -/
theorem claim9_band_partition (pixels : List Nat) (W H : Nat)
    (hW : 1 ≤ W) (hlen : pixels.length = W * H) :
    (chunks pixels W).length = H ∧
    (∀ b ∈ chunks pixels W, b.length = W) ∧
    (chunks pixels W).flatten = pixels :=
  chunks_spec W H pixels hW hlen

theorem claim9_witness :
    1 ≤ 2 ∧ ([1, 2, 3, 4, 5, 6] : List Nat).length = 2 * 3 ∧
    ((chunks [1, 2, 3, 4, 5, 6] 2).length = 3 ∧
     (∀ b ∈ chunks [1, 2, 3, 4, 5, 6] 2, b.length = 2) ∧
     (chunks [1, 2, 3, 4, 5, 6] 2).flatten = [1, 2, 3, 4, 5, 6]) :=
  ⟨by omega, rfl, claim9_band_partition [1, 2, 3, 4, 5, 6] 2 3 (by omega) rfl⟩

/-- C10: an escape index is never 0 (the first check sees `z = 0`), so
`some i` implies `1 ≤ i < L`; consequently under the fixed limit 255 every
escaped pixel's byte is `255 - i ∈ [1, 254]` and the intensity 255 never
occurs in a rendered byte. -/
theorem claim10_escape_positive :
    (∀ (c : Complex) (L i : Nat), escape_time c L = some i → 1 ≤ i ∧ i < L) ∧
    (∀ (bounds pixed : Nat × Nat) (ul lr : Complex),
      renderByte bounds pixed ul lr ≠ 255 ∧
      ∀ i, escape_time (pixed_to_point bounds pixed ul lr) 255 = some i →
        renderByte bounds pixed ul lr = 255 - i ∧
        1 ≤ 255 - i ∧ 255 - i ≤ 254) := by
  refine ⟨escape_time_some_bounds, fun bounds pixed ul lr => ?_⟩
  rcases h : escape_time (pixed_to_point bounds pixed ul lr) 255 with - | i
  · refine ⟨?_, fun i hi => ?_⟩
    · simp [renderByte, h]
    · exact Option.noConfusion hi
  · obtain ⟨h1, h2⟩ := escape_time_some_bounds _ _ _ h
    refine ⟨?_, fun i' hi' => ?_⟩
    · rw [renderByte, h]
      show 255 - i % 256 ≠ 255
      omega
    · have hii : i = i' := by injection hi'
      subst hii
      rw [renderByte, h]
      refine ⟨?_, by omega, by omega⟩
      show 255 - i % 256 = 255 - i
      omega

theorem claim10_witness :
    escape_time ⟨3, 0⟩ 5 = some 1 ∧ (1 ≤ 1 ∧ 1 < 5) := by
  have h : escape_time ⟨3, 0⟩ 5 = some 1 :=
    escape_time_far_aux ⟨3, 0⟩ 5 (by norm_num [norm_sqr]) (by omega)
  exact ⟨h, claim10_escape_positive.1 ⟨3, 0⟩ 5 1 h⟩

end Mandelbrot
